import Mathlib

/-!
Shallow embedding of `src/src/boyer_moore.rs` from the voting-algorithms
repository, together with proofs checking the specification's claims about
the function `boyer_moore`.

The Rust function is

  pub fn boyer_moore(votes: Vec<&str>) -> Option<&str>

Modelling decisions, each visible in the definitions below:
* a Rust `&str` vote is a Lean `String`; the only operation used is equality;
* the running tally `vote_count` is declared `let mut vote_count = 1;` in the
  source, so it is an `i32`; it is modelled as an `Int` wrapped into the i32
  range after every arithmetic operation (two's-complement wrapping, the
  behaviour of Rust integer arithmetic with overflow checks disabled);
* the threshold `((votes.len() as f64) / (2 as f64)).floor() as usize` is
  modelled exactly: the cast to `f64` rounds to the nearest representable
  double (ties to even), division of that integral double by 2 and the
  subsequent floor are exact in IEEE-754 binary64, and the final cast back
  to `usize` truncates a value that is already integral and in range.
-/

namespace BoyerMoore

/-- Two's-complement wrapping of an integer into the value range
`[-2^31, 2^31)` of the Rust type `i32`. -/
def wrap32 (v : Int) : Int := (v + 2 ^ 31) % 2 ^ 32 - 2 ^ 31

/-- One iteration of the phase-1 loop (source lines 23-34).  The state is the
pair `(candidate, vote_count)`.  If the vote equals the candidate the tally is
incremented; otherwise, if the tally is zero the vote becomes the new
candidate and the tally is left untouched; otherwise the tally is
decremented. -/
def step (s : String × Int) (vote : String) : String × Int :=
  if vote = s.1 then (s.1, wrap32 (s.2 + 1))
  else if s.2 = 0 then (vote, s.2)
  else (s.1, wrap32 (s.2 - 1))

/-- The exact real value of the Rust cast `n as f64`, as a natural number.
Casting an unsigned integer to `f64` rounds to the nearest representable
double, ties to even.  Every `n ≤ 2^53` is representable exactly.  For larger
`n`, with `e = log2 n - 52` the representable doubles around `n` are the
multiples of `2^e`, and `n = q * 2^e + r` rounds to `q * 2^e` or
`(q+1) * 2^e` according to the round-to-nearest-ties-to-even rule. -/
def f64ofNat (n : Nat) : Nat :=
  if n ≤ 2 ^ 53 then n
  else
    let e := n.log2 - 52
    let q := n / 2 ^ e
    let r := n % 2 ^ e
    if 2 * r < 2 ^ e then q * 2 ^ e
    else if 2 ^ e < 2 * r then (q + 1) * 2 ^ e
    else if q % 2 = 0 then q * 2 ^ e else (q + 1) * 2 ^ e

/-- The phase-2 threshold of source line 37,
`((votes.len() as f64) / (2 as f64)).floor() as usize`.
The value `f64ofNat n` is an integer exactly representable as a double; its
division by 2.0 is exact in binary64 (for odd values `≤ 2^53` the result
`x.5` is still representable, for larger values `f64ofNat n` is even), so
flooring the quotient and truncating to `usize` yields exactly
`f64ofNat n / 2` in natural-number division. -/
def threshold_code (n : Nat) : Nat := f64ofNat n / 2

/-- The embedded `boyer_moore` (source lines 12-45).  An empty vote list
yields `none`.  Otherwise phase 1 folds `step` over the votes after the
first, starting from the first vote with tally 1 (lines 19-34); phase 2
recounts the final candidate over the whole list and compares the recount
against the threshold (lines 36-44). -/
def boyer_moore (votes : List String) : Option String :=
  match votes with
  | [] => none
  | v0 :: rest =>
    let s := rest.foldl step (v0, 1)
    if threshold_code (v0 :: rest).length < (v0 :: rest).count s.1 then some s.1
    else none

/-- The embedded `boyer_moore` with the potentially panicking extraction of
the first element made explicit.  The source guards `votes.len() == 0` and
then runs `*votes.get(0).expect("Votes should not be empty")`; here the
outer `Option` models the run itself, `none` standing for a panic of that
`expect`, and `some r` for a normal return with result `r`. -/
def boyer_moore_checked (votes : List String) : Option (Option String) :=
  if votes.length = 0 then some none
  else
    match votes.head? with
    | none => none
    | some v0 =>
      let s := (votes.drop 1).foldl step (v0, 1)
      some (if threshold_code votes.length < votes.count s.1 then some s.1
            else none)

/-- The phase-1 step with an unbounded natural-number tally.  It agrees with
`step` on every run whose tally never leaves the i32 range; it is the
reference against which the wrapping behaviour is measured. -/
def stepN (s : String × Nat) (vote : String) : String × Nat :=
  if vote = s.1 then (s.1, s.2 + 1)
  else if s.2 = 0 then (vote, s.2)
  else (s.1, s.2 - 1)

/-- `j` repetitions of the two-vote block `["b", "a"]`, used to build long
ballots whose phase-1 tally stays below 2. -/
def abRep : Nat → List String
  | 0 => []
  | j + 1 => "b" :: "a" :: abRep j

/-- A ballot of length `2^32 + 1` in which the vote "a" holds a strict
majority (`2^32` occurrences out of `2^32 + 1`). -/
def bigList : List String := List.replicate (2 ^ 32) "a" ++ ["b"]

/-- The permutation of `bigList` that moves the single "b" to the front. -/
def bigListPerm : List String := "b" :: List.replicate (2 ^ 32) "a"

/-- A ballot of length `2^54 + 2` split exactly in half: "a" and "b" each
occur `2^53 + 1` times, so neither holds a strict majority. -/
def halfSplit : List String := "a" :: (abRep (2 ^ 53) ++ ["b"])

/-- A ballot of length `2^31` consisting of a single repeated vote, enough
to overflow the i32 tally. -/
def overflowList : List String := List.replicate (2 ^ 31) "a"

/-! ### Helper lemmas: wrapping arithmetic -/

theorem wrap32_eq_self {v : Int} (h1 : -(2 ^ 31) ≤ v) (h2 : v < 2 ^ 31) :
    wrap32 v = v := by
  have e1 : (2 : Int) ^ 31 = 2147483648 := by norm_num
  have e2 : (2 : Int) ^ 32 = 4294967296 := by norm_num
  unfold wrap32
  rw [e1, e2]
  rw [e1] at h1 h2
  omega

theorem wrap32_add (v w : Int) : wrap32 (wrap32 v + w) = wrap32 (v + w) := by
  have e1 : (2 : Int) ^ 31 = 2147483648 := by norm_num
  have e2 : (2 : Int) ^ 32 = 4294967296 := by norm_num
  unfold wrap32
  rw [e1, e2]
  omega

/-! ### Helper lemmas: the wrapping scan agrees with the unbounded scan
on every ballot short enough that the tally stays inside the i32 range -/

theorem foldl_step_agrees (l : List String) : ∀ (c : String) (k : Nat),
    k + l.length < 2 ^ 31 →
    List.foldl step (c, (k : Int)) l =
      ((List.foldl stepN (c, k) l).1, ((List.foldl stepN (c, k) l).2 : Int)) := by
  induction l with
  | nil => intro c k _; rfl
  | cons v l ih =>
    intro c k h
    have hlen : l.length + 1 = (v :: l).length := by simp
    simp only [List.foldl_cons, step, stepN]
    by_cases hv : v = c
    · rw [if_pos hv, if_pos hv]
      have hw : wrap32 ((k : Int) + 1) = ((k + 1 : Nat) : Int) := by
        rw [wrap32_eq_self (by omega) (by push_cast at *; omega)]
        push_cast
        ring
      rw [hw]
      exact ih c (k + 1) (by simp at h ⊢; omega)
    · rw [if_neg hv, if_neg hv]
      by_cases hk : k = 0
      · have hki : ((k : Int) = 0) := by exact_mod_cast hk
        rw [if_pos hki, if_pos hk]
        exact ih v k (by simp at h ⊢; omega)
      · have hki : ¬((k : Int) = 0) := by exact_mod_cast hk
        rw [if_neg hki, if_neg hk]
        have hw : wrap32 ((k : Int) - 1) = ((k - 1 : Nat) : Int) := by
          rw [wrap32_eq_self (by omega) (by push_cast at *; omega)]
          omega
        rw [hw]
        exact ih c (k - 1) (by simp at h ⊢; omega)

/-! ### Helper lemmas: the phase-1 invariant

After scanning any prefix, writing `(c, k)` for the state and `l` for the
votes consumed so far (including the initial one): every vote other than the
candidate occupies at most `(l.length - k) / 2` positions, and the candidate
itself at most `(l.length + k + 1) / 2`.  The two bounds are preserved by
every branch of the loop body, including the candidate switch that leaves
the tally at 0. -/

theorem scan_inv (rest : List String) : ∀ (c : String) (k : Nat) (l : List String),
    (∀ x, x ≠ c → 2 * l.count x + k ≤ l.length) →
    2 * l.count c ≤ l.length + k + 1 →
    (∀ x, x ≠ (List.foldl stepN (c, k) rest).1 →
        2 * (l ++ rest).count x + (List.foldl stepN (c, k) rest).2 ≤
          (l ++ rest).length) ∧
    2 * (l ++ rest).count (List.foldl stepN (c, k) rest).1 ≤
      (l ++ rest).length + (List.foldl stepN (c, k) rest).2 + 1 := by
  induction rest with
  | nil =>
    intro c k l ha hb
    simpa using ⟨ha, hb⟩
  | cons v rest ih =>
    intro c k l ha hb
    have hassoc : l ++ v :: rest = (l ++ [v]) ++ rest := by simp
    rw [hassoc]
    simp only [List.foldl_cons, stepN]
    by_cases hv : v = c
    · rw [if_pos hv]
      refine ih c (k + 1) (l ++ [v]) ?_ ?_
      · intro x hx
        have h1 := ha x hx
        have h2 : v ≠ x := by rw [hv]; exact fun h => hx h.symm
        simp [List.count_append, List.count_singleton, h2]
        omega
      · have h2 : (v == c) = true := by simp [hv]
        simp [List.count_append, List.count_singleton, h2]
        omega
    · rw [if_neg hv]
      by_cases hk : k = 0
      · rw [if_pos hk]
        refine ih v k (l ++ [v]) ?_ ?_
        · intro x hx
          have h2 : ¬((v == x) = true) := by simpa using fun h => hx h.symm
          by_cases hxc : x = c
          · subst hxc
            simp [List.count_append, List.count_singleton, h2]
            omega
          · have h1 := ha x hxc
            simp [List.count_append, List.count_singleton, h2]
            omega
        · have h1 := ha v hv
          simp [List.count_append, List.count_singleton]
          omega
      · rw [if_neg hk]
        refine ih c (k - 1) (l ++ [v]) ?_ ?_
        · intro x hx
          by_cases hvx : v = x
          · subst hvx
            have h1 := ha v hv
            simp [List.count_append, List.count_singleton]
            omega
          · have h1 := ha x hx
            have h2 : ¬((v == x) = true) := by simpa using hvx
            simp [List.count_append, List.count_singleton, h2]
            omega
        · have h2 : ¬((v == c) = true) := by simpa using hv
          simp [List.count_append, List.count_singleton, h2]
          omega

/-- Phase 1 with the unbounded tally always ends on a strict-majority vote,
when one exists: any vote different from the final candidate occupies at
most half of the positions. -/
theorem scanN_maj (v0 : String) (rest : List String) (x : String)
    (hx : x ≠ (List.foldl stepN (v0, 1) rest).1) :
    2 * (v0 :: rest).count x ≤ (v0 :: rest).length := by
  have base1 : ∀ y, y ≠ v0 → 2 * ([v0].count y) + 1 ≤ ([v0] : List String).length := by
    intro y hy
    have h2 : ¬((v0 == y) = true) := by simpa using fun h => hy h.symm
    simp [List.count_singleton, h2]
  have base2 : 2 * ([v0].count v0) ≤ ([v0] : List String).length + 1 + 1 := by
    simp [List.count_singleton]
  have h := (scan_inv rest v0 1 [v0] base1 base2).1 x hx
  have hc : ([v0] ++ rest : List String) = v0 :: rest := by simp
  rw [hc] at h
  omega

/-! ### Helper lemmas: the threshold -/

/-- Below `2^53` the cast to `f64` is lossless, so the computed threshold is
exactly `floor (n / 2)`. -/
theorem threshold_code_of_le {n : Nat} (h : n ≤ 2 ^ 53) :
    threshold_code n = n / 2 := by
  unfold threshold_code f64ofNat
  rw [if_pos h]

theorem log2_of_2_54_2 : Nat.log2 (2 ^ 54 + 2) = 54 := by
  rw [Nat.log2_eq_log_two]
  exact Nat.log_eq_of_pow_le_of_lt_pow (by norm_num) (by norm_num)

/-- At `n = 2^54 + 2` the cast `n as f64` rounds down to `2^54` (the tie
between the neighbouring doubles `2^54` and `2^54 + 4` resolves to the even
significand), so the code's threshold is `2^53`, one less than
`floor (n / 2) = 2^53 + 1`. -/
theorem threshold_code_at_2_54_2 : threshold_code (2 ^ 54 + 2) = 2 ^ 53 := by
  rw [threshold_code, f64ofNat, if_neg (by norm_num), log2_of_2_54_2]
  norm_num

/-! ### Helper lemmas: soundness and completeness of the embedded function -/

/-- Soundness: on ballots short enough that the threshold is exact, a
returned winner occupies strictly more than `floor (n / 2)` positions and is
one of the votes. -/
theorem bm_sound (votes : List String) (v : String) (hn : votes.length ≤ 2 ^ 53)
    (h : boyer_moore votes = some v) :
    votes.length / 2 < votes.count v ∧ v ∈ votes := by
  match votes with
  | [] => simp [boyer_moore] at h
  | v0 :: rest =>
    simp only [boyer_moore] at h
    split at h
    · rename_i hc
      rw [Option.some_inj] at h
      subst h
      rw [threshold_code_of_le hn] at hc
      refine ⟨hc, ?_⟩
      have : 0 < (v0 :: rest).count (rest.foldl step (v0, 1)).1 := by omega
      exact List.count_pos_iff.1 this
    · exact absurd h (by simp)

/-- Completeness: on ballots short enough that the i32 tally cannot
overflow, a vote holding a strict majority is always returned. -/
theorem bm_complete (votes : List String) (v : String)
    (hn : votes.length < 2 ^ 31) (hv : votes.length / 2 < votes.count v) :
    boyer_moore votes = some v := by
  match votes with
  | [] => simp at hv
  | v0 :: rest =>
    have ht := foldl_step_agrees rest v0 1 (by simp at hn ⊢; omega)
    norm_num at ht
    have hmaj : 2 * (v0 :: rest).count v > (v0 :: rest).length := by
      have := Nat.div_add_mod (v0 :: rest).length 2
      omega
    have hcand : v = (rest.foldl stepN (v0, 1)).1 := by
      by_contra hne
      have := scanN_maj v0 rest v hne
      omega
    simp only [boyer_moore, ht]
    rw [← hcand]
    have hle : (v0 :: rest).length ≤ 2 ^ 53 := le_trans hn.le (by norm_num)
    rw [threshold_code_of_le hle, if_pos hv]

/-- On ballots with an exact threshold and no strict-majority vote, the
function returns `none`. -/
theorem bm_none (votes : List String) (hn : votes.length ≤ 2 ^ 53)
    (h : ∀ v ∈ votes, 2 * votes.count v ≤ votes.length) :
    boyer_moore votes = none := by
  cases hbm : boyer_moore votes with
  | none => rfl
  | some w =>
    obtain ⟨hw, hmem⟩ := bm_sound votes w hn hbm
    have h2 := h w hmem
    have := Nat.div_add_mod votes.length 2
    omega

/-- Below the overflow bound the result is `some v` exactly when `v` holds a
strict majority. -/
theorem bm_some_iff (votes : List String) (v : String)
    (hn : votes.length < 2 ^ 31) :
    boyer_moore votes = some v ↔ votes.length / 2 < votes.count v :=
  ⟨fun h => (bm_sound votes v (le_trans hn.le (by norm_num)) h).1,
   fun h => bm_complete votes v hn h⟩

/-! ### Helper lemmas: evaluating phase 1 on long concrete ballots -/

/-- Scanning a run of votes equal to the candidate adds the length of the
run to the tally, with i32 wrapping. -/
theorem foldl_step_replicate (m : Nat) : ∀ (c : String) (k : Int),
    List.foldl step (c, wrap32 k) (List.replicate m c) = (c, wrap32 (k + m)) := by
  induction m with
  | zero => intro c k; simp
  | succ m ih =>
    intro c k
    rw [List.replicate_succ, List.foldl_cons]
    have hs : step (c, wrap32 k) c = (c, wrap32 (k + 1)) := by
      rw [step, if_pos rfl, wrap32_add]
    rw [hs, ih c (k + 1)]
    have : (k + 1) + (m : Int) = k + ((m + 1 : Nat) : Int) := by push_cast; ring
    rw [this]

theorem wrap32_one : wrap32 1 = 1 := wrap32_eq_self (by norm_num) (by norm_num)

theorem wrap32_zero : wrap32 0 = 0 := wrap32_eq_self (by norm_num) (by norm_num)

theorem abRep_length (j : Nat) : (abRep j).length = 2 * j := by
  induction j with
  | zero => rfl
  | succ j ih => simp [abRep, ih]; omega

theorem abRep_count_a (j : Nat) : (abRep j).count "a" = j := by
  induction j with
  | zero => rfl
  | succ j ih => simp [abRep, List.count_cons, ih]

theorem abRep_count_b (j : Nat) : (abRep j).count "b" = j := by
  induction j with
  | zero => rfl
  | succ j ih => simp [abRep, List.count_cons, ih]

theorem abRep_mem (j : Nat) (x : String) (h : x ∈ abRep j) :
    x = "b" ∨ x = "a" := by
  induction j with
  | zero => simp [abRep] at h
  | succ j ih =>
    rw [abRep, List.mem_cons, List.mem_cons] at h
    rcases h with h | h | h
    · exact Or.inl h
    · exact Or.inr h
    · exact ih h

/-- Scanning the alternation block `["b", "a"]` from the state `("a", 1)`
returns to `("a", 1)`: the "b" decrements the tally to 0, the "a" brings it
back.  Hence the tally stays in `{0, 1}` across `abRep j`. -/
theorem abRep_fold (j : Nat) : List.foldl step ("a", 1) (abRep j) = ("a", 1) := by
  induction j with
  | zero => rfl
  | succ j ih =>
    rw [abRep, List.foldl_cons, List.foldl_cons]
    have h1 : step ("a", 1) "b" = ("a", 0) := by
      rw [step, if_neg (by decide), if_neg (by decide)]
      simp [wrap32_zero]
    have h2 : step ("a", 0) "a" = ("a", 1) := by
      rw [step, if_pos rfl]
      simp [wrap32_one]
    rw [h1, h2, ih]

/-- The wrapping scan of `2^32` copies of "a" followed by one "b": the tally
wraps around the full i32 circle back to 0 on the last "a", so the final "b"
is adopted as candidate. -/
theorem bigList_scan :
    List.foldl step ("a", 1) (List.replicate (2 ^ 32 - 1) "a" ++ ["b"]) = ("b", 0) := by
  rw [List.foldl_append]
  have h1 : List.foldl step ("a", 1) (List.replicate (2 ^ 32 - 1) "a") = ("a", 0) := by
    rw [← wrap32_one, foldl_step_replicate]
    have h2 : (1 : Int) + ((2 ^ 32 - 1 : Nat) : Int) = 2 ^ 32 := by push_cast [Nat.cast_sub]
    rw [h2]
    rw [show wrap32 (2 ^ 32) = 0 by unfold wrap32; omega]
  rw [h1]
  rw [show List.foldl step ("a", 0) ["b"] = step ("a", 0) "b" from rfl]
  rw [step, if_neg (by decide), if_pos rfl]

theorem bigList_eq : bigList = "a" :: (List.replicate (2 ^ 32 - 1) "a" ++ ["b"]) := by
  rw [bigList, show (2 : Nat) ^ 32 = (2 ^ 32 - 1) + 1 by norm_num, List.replicate_succ]
  rfl

theorem bm_bigList : boyer_moore bigList = none := by
  rw [bigList_eq]
  simp only [boyer_moore, bigList_scan]
  rw [if_neg]
  intro hlt
  have hcount : ("a" :: (List.replicate (2 ^ 32 - 1) "a" ++ ["b"])).count "b" = 1 := by
    rw [List.count_cons, List.count_append, List.count_replicate, List.count_singleton]
    decide
  have hlen : ("a" :: (List.replicate (2 ^ 32 - 1) "a" ++ ["b"])).length = 2 ^ 32 + 1 := by
    rw [List.length_cons, List.length_append, List.length_replicate, List.length_singleton]
    omega
  rw [hcount, hlen, threshold_code_of_le (by norm_num)] at hlt
  norm_num at hlt

theorem bigList_count_a : bigList.count "a" = 2 ^ 32 := by
  rw [bigList, List.count_append, List.count_replicate, List.count_singleton]
  decide

theorem bigList_length : bigList.length = 2 ^ 32 + 1 := by
  rw [bigList, List.length_append, List.length_replicate, List.length_singleton]

/-- The scan of the permuted ballot `"b" :: a^(2^32)`: the first "a"
decrements the tally to 0, the second is adopted, and the remaining
`2^32 - 2` copies of "a" push the tally around to -2; the candidate ends
as "a". -/
theorem bigListPerm_scan :
    List.foldl step ("b", 1) (List.replicate (2 ^ 32) "a") = ("a", wrap32 (2 ^ 32 - 2)) := by
  rw [show (2 : Nat) ^ 32 = ((2 ^ 32 - 2) + 1) + 1 by norm_num,
      List.replicate_succ, List.replicate_succ, List.foldl_cons, List.foldl_cons]
  have h1 : step ("b", 1) "a" = ("b", 0) := by
    rw [step, if_neg (by decide), if_neg (by decide)]
    simp [wrap32_zero]
  have h2 : step ("b", 0) "a" = ("a", 0) := by
    rw [step, if_neg (by decide), if_pos rfl]
  rw [h1, h2, ← wrap32_zero, foldl_step_replicate]
  have h3 : (0 : Int) + ((2 ^ 32 - 2 : Nat) : Int) = (2 ^ 32 - 2 : Int) := by omega
  rw [h3]

theorem bm_bigListPerm : boyer_moore bigListPerm = some "a" := by
  rw [bigListPerm]
  simp only [boyer_moore, bigListPerm_scan]
  rw [if_pos]
  have hcount : ("b" :: List.replicate (2 ^ 32) "a").count "a" = 2 ^ 32 := by
    rw [List.count_cons, List.count_replicate_self]
    decide
  have hlen : ("b" :: List.replicate (2 ^ 32) "a").length = 2 ^ 32 + 1 := by
    rw [List.length_cons, List.length_replicate]
  rw [hcount, hlen, threshold_code_of_le (by norm_num)]
  norm_num

/-- The scan of `halfSplit`: the `2^53` alternation blocks return the state
to `("a", 1)` and the final "b" decrements it, so "a" is the final
candidate (the tally never leaves {0, 1}). -/
theorem halfSplit_scan :
    List.foldl step ("a", 1) (abRep (2 ^ 53) ++ ["b"]) = ("a", 0) := by
  rw [List.foldl_append, abRep_fold]
  rw [show List.foldl step ("a", 1) ["b"] = step ("a", 1) "b" from rfl]
  rw [step, if_neg (by decide), if_neg (by decide)]
  simp [wrap32_zero]

theorem halfSplit_count_a : halfSplit.count "a" = 2 ^ 53 + 1 := by
  rw [halfSplit, List.count_cons, List.count_append, abRep_count_a,
      List.count_singleton]
  decide

theorem halfSplit_count_b : halfSplit.count "b" = 2 ^ 53 + 1 := by
  rw [halfSplit, List.count_cons, List.count_append, abRep_count_b,
      List.count_singleton]
  decide

theorem halfSplit_length : halfSplit.length = 2 ^ 54 + 2 := by
  rw [halfSplit, List.length_cons, List.length_append, abRep_length,
      List.length_singleton]
  omega

theorem halfSplit_mem (x : String) (h : x ∈ halfSplit) : x = "a" ∨ x = "b" := by
  rw [halfSplit, List.mem_cons, List.mem_append, List.mem_singleton] at h
  rcases h with h | h | h
  · exact Or.inl h
  · exact (abRep_mem _ x h).symm
  · exact Or.inr h

/-- The embedded function accepts the exactly-half ballot `halfSplit`: its
final candidate "a" occupies `2^53 + 1` of the `2^54 + 2` positions, exactly
half, yet the floating-point threshold `2^53` is exceeded. -/
theorem bm_halfSplit : boyer_moore halfSplit = some "a" := by
  rw [halfSplit]
  simp only [boyer_moore, halfSplit_scan]
  rw [if_pos]
  have hc : ("a" :: (abRep (2 ^ 53) ++ ["b"])).count "a" = 2 ^ 53 + 1 := by
    rw [← halfSplit, halfSplit_count_a]
  have hl : ("a" :: (abRep (2 ^ 53) ++ ["b"])).length = 2 ^ 54 + 2 := by
    rw [← halfSplit, halfSplit_length]
  rw [hc, hl, threshold_code_at_2_54_2]
  norm_num

/-- Scanning `2^31` copies of a single vote drives the i32 tally to
`-2^31`: it overflows exactly on the last increment. -/
theorem overflow_scan :
    (List.foldl step ("a", 1) (List.replicate (2 ^ 31 - 1) "a")).2 = -(2 ^ 31) := by
  rw [← wrap32_one, foldl_step_replicate]
  have h1 : (1 : Int) + ((2 ^ 31 - 1 : Nat) : Int) = 2 ^ 31 := by omega
  rw [h1, show wrap32 (2 ^ 31) = -(2 ^ 31) by unfold wrap32; omega]

/-! ### Helper lemmas: permutation invariance below the overflow bound,
the panic-free run, and tally nonnegativity -/

theorem bm_perm (l1 l2 : List String) (hn : l1.length < 2 ^ 31)
    (hp : l1.Perm l2) : boyer_moore l1 = boyer_moore l2 := by
  have hn2 : l2.length < 2 ^ 31 := hp.length_eq ▸ hn
  cases h1 : boyer_moore l1 with
  | some v =>
    rw [bm_some_iff l1 v hn] at h1
    rw [eq_comm, bm_some_iff l2 v hn2, ← hp.count_eq v, ← hp.length_eq]
    exact h1
  | none =>
    cases h2 : boyer_moore l2 with
    | none => rfl
    | some w =>
      rw [bm_some_iff l2 w hn2, ← hp.count_eq w, ← hp.length_eq] at h2
      rw [← bm_some_iff l1 w hn] at h2
      rw [h1] at h2
      exact Option.noConfusion h2

theorem bigList_perm : bigList.Perm bigListPerm := by
  rw [bigList, bigListPerm]
  exact List.perm_append_comm

theorem checked_eq (votes : List String) :
    boyer_moore_checked votes = some (boyer_moore votes) := by
  cases votes with
  | nil => rfl
  | cons v0 rest => simp [boyer_moore_checked, boyer_moore]

theorem scan_take_nonneg (v0 : String) (rest : List String)
    (hn : (v0 :: rest).length < 2 ^ 31) (i : Nat) :
    0 ≤ (List.foldl step (v0, 1) (rest.take i)).2 := by
  have hlen : (rest.take i).length ≤ rest.length := by
    rw [List.length_take]
    omega
  have ht := foldl_step_agrees (rest.take i) v0 1 (by simp at hn; omega)
  norm_num at ht
  rw [ht]
  exact Int.natCast_nonneg _

/-! ### The claims -/

/-- C1 (counterexample): the claim fails as stated.  In the ballot
`bigList = a^(2^32) ++ [b]` the vote "a" occurs in strictly more than
`floor(n/2)` of the `n = 2^32 + 1` positions, yet `boyer_moore` returns
`none`: the i32 tally wraps around the full 32-bit circle to 0 during the
run of "a"s, so the final "b" is adopted as candidate and fails the
recount. -/
theorem claim1_counterexample :
    bigList.length / 2 < bigList.count "a" ∧ boyer_moore bigList = none := by
  refine ⟨?_, bm_bigList⟩
  rw [bigList_length, bigList_count_a]
  norm_num

/-- C1 (amended): for every ballot of length below `2^31` (so that the i32
tally cannot overflow), if a vote `v` occurs in strictly more than
`floor(n/2)` of the `n` positions then `boyer_moore` returns `some v`. -/
theorem claim1_amended (votes : List String) (v : String)
    (hn : votes.length < 2 ^ 31) (hv : votes.length / 2 < votes.count v) :
    boyer_moore votes = some v :=
  bm_complete votes v hn hv

/-- C1 (witness): the amended statement applied to the concrete ballot
`["a", "a", "b"]`. -/
theorem claim1_witness :
    (["a", "a", "b"] : List String).length < 2 ^ 31 ∧
    (["a", "a", "b"] : List String).length / 2 < (["a", "a", "b"] : List String).count "a" ∧
    boyer_moore ["a", "a", "b"] = some "a" :=
  ⟨by decide, by decide, claim1_amended ["a", "a", "b"] "a" (by decide) (by decide)⟩

/-- C2 (counterexample): the claim fails as stated.  Scanning
`["a", "b", "c"]`, the vote "c" arrives when the tally is 0 and differs from
the candidate "a"; the code adopts "c" but leaves the tally at 0, not 1. -/
theorem claim2_counterexample :
    (List.foldl step ("a", 1) ["b", "c"]).1 = "c" ∧
    (List.foldl step ("a", 1) ["b", "c"]).2 ≠ 1 := by
  decide

/-- C2 (amended): whenever the current vote differs from the candidate and
the running count is 0, the code adopts that vote as the new candidate and
leaves the running tally at 0, so after every such candidate switch the
count state equals 0.  (The recount of phase 2 — and, by `claim1_amended`'s
underlying invariant, even phase 1 alone — remains correct regardless.) -/
theorem claim2_amended (c v : String) (k : Int) (hv : v ≠ c) (hk : k = 0) :
    step (c, k) v = (v, 0) := by
  rw [step]
  simp only []
  rw [if_neg hv, if_pos hk, hk]

/-- C2 (witness): the amended statement applied to the concrete state
`("a", 0)` and vote "b". -/
theorem claim2_witness :
    ("b" : String) ≠ "a" ∧ step ("a", 0) "b" = ("b", 0) :=
  ⟨by decide, claim2_amended "a" "b" 0 (by decide) rfl⟩

/-- C3: the claim is right and the code is wrong.  The code computes the
threshold as `((votes.len() as f64) / (2 as f64)).floor() as usize`, i.e.
with floating-point arithmetic, not exact integer arithmetic.  At
`n = 2^54 + 2` the cast rounds `n` down to `2^54`, so the computed
threshold is `2^53` whereas `floor(n/2) = 2^53 + 1`: the rounding error the
spec demands be avoided does occur. -/
theorem claim3_theorem :
    threshold_code (2 ^ 54 + 2) = 2 ^ 53 ∧ (2 ^ 54 + 2) / 2 = 2 ^ 53 + 1 :=
  ⟨threshold_code_at_2_54_2, by norm_num⟩

/-- C4 (counterexample): the claim fails as stated.  On the ballot
`halfSplit` of length `2^54 + 2` the function returns `some "a"` although
"a" occupies exactly half of the positions, not strictly more than
`floor(n/2)`: the floating-point threshold is one too small there. -/
theorem claim4_counterexample :
    boyer_moore halfSplit = some "a" ∧
    ¬ halfSplit.length / 2 < halfSplit.count "a" := by
  refine ⟨bm_halfSplit, ?_⟩
  rw [halfSplit_length, halfSplit_count_a]
  norm_num

/-- C4 (amended): for every ballot of length at most `2^53` (so that the
floating-point threshold is exact), if `boyer_moore` returns `some v` then
`v` occurs in strictly more than `floor(n/2)` of the `n` positions, and in
particular `v` is an element of the ballot. -/
theorem claim4_amended (votes : List String) (v : String)
    (hn : votes.length ≤ 2 ^ 53) (h : boyer_moore votes = some v) :
    votes.length / 2 < votes.count v ∧ v ∈ votes :=
  bm_sound votes v hn h

/-- C4 (witness): the amended statement applied to the concrete ballot
`["a", "a", "b"]`. -/
theorem claim4_witness :
    (["a", "a", "b"] : List String).length ≤ 2 ^ 53 ∧
    boyer_moore ["a", "a", "b"] = some "a" ∧
    ((["a", "a", "b"] : List String).length / 2 < (["a", "a", "b"] : List String).count "a" ∧
      "a" ∈ (["a", "a", "b"] : List String)) :=
  ⟨by decide, by decide, claim4_amended ["a", "a", "b"] "a" (by decide) (by decide)⟩

/-- C5 (counterexample): the claim fails as stated.  In the ballot
`halfSplit` both "a" and "b" occur in exactly half of the positions — an
exact 50% split, so no vote exceeds `floor(n/2)` — yet the function does
not return `none`. -/
theorem claim5_counterexample :
    (∀ v ∈ halfSplit, ¬ halfSplit.length / 2 < halfSplit.count v) ∧
    boyer_moore halfSplit ≠ none := by
  constructor
  · intro v hv
    rcases halfSplit_mem v hv with h | h
    · subst h
      rw [halfSplit_length, halfSplit_count_a]
      norm_num
    · subst h
      rw [halfSplit_length, halfSplit_count_b]
      norm_num
  · rw [bm_halfSplit]
    simp

/-- C5 (amended): for every ballot of length at most `2^53` (so that the
floating-point threshold is exact), if no vote occurs in strictly more than
`floor(n/2)` positions — including an exact 50% split — then `boyer_moore`
returns `none`; exceeding the threshold, not meeting it, is the win
condition. -/
theorem claim5_amended (votes : List String) (hn : votes.length ≤ 2 ^ 53)
    (h : ∀ v ∈ votes, 2 * votes.count v ≤ votes.length) :
    boyer_moore votes = none :=
  bm_none votes hn h

/-- C5 (witness): the amended statement applied to the exactly-split
concrete ballot `["a", "b"]`. -/
theorem claim5_witness :
    (["a", "b"] : List String).length ≤ 2 ^ 53 ∧
    (∀ v ∈ (["a", "b"] : List String), 2 * (["a", "b"] : List String).count v ≤ 2) ∧
    boyer_moore ["a", "b"] = none :=
  ⟨by decide, by decide, claim5_amended ["a", "b"] (by decide) (by decide)⟩

/-- C6: applied to the empty ballot, `boyer_moore` returns `none`, by the
guard on line 14 of the source, before any element is examined. -/
theorem claim6_theorem : boyer_moore [] = none := rfl

/-- C7 (counterexample): the claim fails as stated.  The ballots `bigList`
and `bigListPerm` are permutations of each other, but on `bigList` the
wrapped tally lets the lone "b" steal the candidacy (result `none`) while
on `bigListPerm` the candidate ends as "a" (result `some "a"`). -/
theorem claim7_counterexample :
    bigList.Perm bigListPerm ∧ boyer_moore bigList = none ∧
    boyer_moore bigListPerm = some "a" :=
  ⟨bigList_perm, bm_bigList, bm_bigListPerm⟩

/-- C7 (amended): for ballots of length below `2^31` (so that the i32 tally
cannot overflow), permuting the ballot never changes the result: the output
depends only on the multiset of votes. -/
theorem claim7_amended (l1 l2 : List String) (hn : l1.length < 2 ^ 31)
    (hp : l1.Perm l2) : boyer_moore l1 = boyer_moore l2 :=
  bm_perm l1 l2 hn hp

/-- C7 (witness): the amended statement applied to the concrete permuted
pair `["a", "b", "a"]` and `["b", "a", "a"]`. -/
theorem claim7_witness :
    (["a", "b", "a"] : List String).length < 2 ^ 31 ∧
    (["a", "b", "a"] : List String).Perm ["b", "a", "a"] ∧
    boyer_moore ["a", "b", "a"] = boyer_moore ["b", "a", "a"] :=
  ⟨by decide, by decide, claim7_amended ["a", "b", "a"] ["b", "a", "a"] (by decide) (by decide)⟩

/-- C8: the function is total.  `boyer_moore_checked` makes the potentially
panicking `expect` on `votes.get(0)` explicit (`none` = panic); every run
returns normally with the value of `boyer_moore`, the emptiness guard
making the panic branch unreachable. -/
theorem claim8_theorem (votes : List String) :
    boyer_moore_checked votes = some (boyer_moore votes) :=
  checked_eq votes

/-- C9: `boyer_moore` terminates on every finite ballot with a unique,
deterministic result: there is exactly one `r` with `boyer_moore votes = r`,
so any two calls on the same ballot agree. -/
theorem claim9_theorem (votes : List String) :
    ∃! r : Option String, boyer_moore votes = r :=
  ⟨boyer_moore votes, rfl, fun _ hy => hy.symm⟩

/-- C10 (counterexample): the claim fails as stated.  Scanning the ballot
`overflowList = a^(2^31)` (first element "a", then `2^31 - 1` further
copies), the i32 tally overflows on the final increment and the scan state
becomes negative. -/
theorem claim10_counterexample :
    overflowList = "a" :: List.replicate (2 ^ 31 - 1) "a" ∧
    (List.foldl step ("a", 1) (List.replicate (2 ^ 31 - 1) "a")).2 < 0 := by
  constructor
  · rw [overflowList, show (2 : Nat) ^ 31 = (2 ^ 31 - 1) + 1 by norm_num,
        List.replicate_succ]
    norm_num
  · rw [overflow_scan]
    norm_num

/-- C10 (amended): for every ballot of length below `2^31` (so that the i32
tally cannot overflow), the running tally is nonnegative before and after
processing every element of the scan: a decrement only happens in the
branch where the tally is nonzero. -/
theorem claim10_amended (v0 : String) (rest : List String)
    (hn : (v0 :: rest).length < 2 ^ 31) (i : Nat) :
    0 ≤ (List.foldl step (v0, 1) (rest.take i)).2 :=
  scan_take_nonneg v0 rest hn i

/-- C10 (witness): the amended statement applied to the concrete ballot
`["a", "b", "c"]` after two loop iterations. -/
theorem claim10_witness :
    (["a", "b", "c"] : List String).length < 2 ^ 31 ∧
    0 ≤ (List.foldl step ("a", 1) ((["b", "c"] : List String).take 2)).2 :=
  ⟨by decide, claim10_amended "a" ["b", "c"] (by decide) 2⟩

end BoyerMoore
